import Mathlib

/-!
# serialtools: the line-feed normalizer

A shallow embedding of `serial.go`. Bytes are natural numbers (the code does
no arithmetic on them, it only compares them with `'\r'`, `'\n'` and `0`), a
byte slice is a `List Nat`, and Go's `int` is `Int`.

* `normalizeLoop` / `normalize` embed `(*LFNormalizer).normalize`: the scan
  loop works in place on the slice, so the model carries the whole slice, the
  stored byte `l.c`, the index `i` and the counter `skipped`.
* `Read` embeds `(*LFNormalizer).Read` over an arbitrary upstream reader,
  given as a state type with a `read` function. An upstream read that returns
  a count above the length of the buffer makes the slice expression `p[:n]`
  panic or reach into spare capacity; `Read` is `none` there, and the
  properties of `Read` are stated for upstreams that keep to the contract of
  `io.Reader`.
* `stepByte`, `scanOut`, `scanState`, `scanSkipped` describe the scan byte by
  byte on lists; `refNormalize` is the reference fold of the specification,
  over the three-valued pending marker.
-/

namespace Serialtools

/-! ## Bytes -/

/-- The byte `'\r'`. -/
@[reducible] def CR : Nat := 13

/-- The byte `'\n'`. -/
@[reducible] def LF : Nat := 10

/-- Go's builtin `copy(dst, src)`: the contents of `dst` afterwards. It copies
`min(len(dst), len(src))` elements; overlapping slices behave as if `src` was
read in full first. -/
def goCopy (dst src : List Nat) : List Nat :=
  src.take (min dst.length src.length) ++ dst.drop (min dst.length src.length)

/-! ## normalize -/

/-- The `for i := 0; i < len(p); i++` loop of `normalize`, one iteration per
unit of fuel; `none` when the fuel runs out before the loop exits. The state is
the slice `p`, the stored byte `l.c`, the index `i` and `skipped`. In the
removal branch the body's `i--` and the loop's `i++` cancel, so the next
iteration examines index `i` again; the bound stays `len(p)`. The result is
the slice, `l.c` and `skipped` at loop exit. -/
def normalizeLoop : Nat → List Nat → Nat → Nat → Nat → Option (List Nat × Nat × Nat)
  | 0, _, _, _, _ => none
  | fuel + 1, p, c, i, skipped =>
    if h : i < p.length then
      let b := p[i]
      if b = CR ∨ b = LF then
        if c ≠ 0 ∧ c ≠ b then
          normalizeLoop fuel (p.take i ++ goCopy (p.drop i) (p.drop (i + 1))) 0 i (skipped + 1)
        else
          normalizeLoop fuel (p.set i LF) b (i + 1) skipped
      else
        normalizeLoop fuel p 0 (i + 1) skipped
    else
      some (p, c, skipped)

/-- What a call of `normalize` leaves behind: the slice contents, the stored
byte `l.c`, and the returned length. -/
structure Normalized where
  buf : List Nat
  c : Nat
  n : Int
deriving DecidableEq, Repr

/-- The method `normalize(p)` on a normalizer whose stored byte is `c`: runs the
loop from `i = 0`, `skipped = 0` and returns `len(p) - skipped`. The fuel
`2 * len(p) + 1` is shown to be enough in `normalize_eq`. -/
def normalize (p : List Nat) (c : Nat) : Option Normalized :=
  (normalizeLoop (2 * p.length + 1) p c 0 0).map
    fun r => { buf := r.1, c := r.2.1, n := (r.1.length : Int) - (r.2.2 : Int) }

/-- The bytes a call of `normalize` hands back: the prefix `p[:n]` of the
slice, `n` the returned length. -/
def Normalized.out (r : Normalized) : List Nat := r.buf.take r.n.toNat

/-- Successive calls of `normalize` on one normalizer, one call per chunk, the
stored byte carried from call to call: the concatenation of the returned
prefixes and the stored byte at the end. -/
def normalizeChunks : Nat → List (List Nat) → Option (List Nat × Nat)
  | c, [] => some ([], c)
  | c, p :: ps =>
    match normalize p c with
    | none => none
    | some r =>
      match normalizeChunks r.c ps with
      | none => none
      | some rest => some (r.out ++ rest.1, rest.2)

/-! ## Read -/

/-- What one call of an upstream `Read(p)` gives: the upstream's next state, the
contents of `p` afterwards, and the returned count and error. -/
structure ReadResult (σ ε : Type) where
  state : σ
  buf : List Nat
  n : Int
  err : Option ε

/-- An upstream `io.Reader`: a state and its `Read` method. -/
structure Upstream (σ ε : Type) where
  read : σ → List Nat → ReadResult σ ε

/-- The struct `LFNormalizer`: the state of the underlying reader `r` and the
stored byte `c`. -/
structure LFNormalizer (σ : Type) where
  r : σ
  c : Nat

/-- The constructor `NewLFNormalizer(r)`: the stored byte is the zero value. -/
def NewLFNormalizer {σ : Type} (r : σ) : LFNormalizer σ := { r := r, c := 0 }

/-- What a call of `Read` leaves behind and returns: the normalizer, the
contents of `p`, the count and the error. -/
structure ReadOut (σ ε : Type) where
  l : LFNormalizer σ
  buf : List Nat
  n : Int
  err : Option ε

/-- The block `if n > 0 { n = l.normalize(p[:n]) }`: the stored byte, the
contents of `p` and `n` afterwards. `normalize` works in place on the prefix
`p[:n]`; the rest of `p` is untouched. The slice expression `p[:n]` is in
range for `n <= len(p)`, which is what an `io.Reader` returns. For a count
above `len(p)` it panics (above `cap(p)`) or reaches into the spare capacity
of the slice, which a list does not carry: the result is `none` there, and
nothing is stated about such a count. -/
def normalizeFilled (c : Nat) (p : List Nat) (n : Int) : Option (Nat × List Nat × Int) :=
  if n > 0 then
    if n ≤ (p.length : Int) then
      (normalize (p.take n.toNat) c).map fun r => (r.c, r.buf ++ p.drop n.toNat, r.n)
    else
      none
  else
    some (c, p, n)

/-- The method `Read(p)`: one upstream read, normalization of what it
delivered, and a second upstream read when the count is zero, the buffer not
empty and the error nil. It is `none` when an upstream read returns a count
above the length of the buffer (see `normalizeFilled`). -/
def Read {σ ε : Type} (u : Upstream σ ε) (l : LFNormalizer σ) (p : List Nat) :
    Option (ReadOut σ ε) :=
  let r1 := u.read l.r p
  match normalizeFilled l.c r1.buf r1.n with
  | none => none
  | some (c1, p1, n1) =>
    if n1 = 0 ∧ p.length ≠ 0 ∧ r1.err.isNone then
      let r2 := u.read r1.state p1
      match normalizeFilled c1 r2.buf r2.n with
      | none => none
      | some (c2, p2, n2) => some { l := { r := r2.state, c := c2 }, buf := p2, n := n2, err := r2.err }
    else
      some { l := { r := r1.state, c := c1 }, buf := p1, n := n1, err := r1.err }

/-- The bytes a call of `Read` hands back: the prefix `p[:n]`. -/
def ReadOut.out {σ ε : Type} (o : ReadOut σ ε) : List Nat := o.buf.take o.n.toNat

/-- Successive calls of `Read` with buffers of the given sizes on one
normalizer: the concatenation of the returned prefixes. -/
def readSizes {σ ε : Type} (u : Upstream σ ε) : LFNormalizer σ → List Nat → Option (List Nat)
  | _, [] => some []
  | l, k :: ks =>
    match Read u l (List.replicate k 0) with
    | none => none
    | some o => (readSizes u o.l ks).map fun rest => o.out ++ rest

/-! ## Upstream readers used in the examples -/

/-- Errors of the upstream readers of the examples: `io.EOF` and any other
error. -/
inductive IOErr where
  | EOF
  | other (code : Nat)
deriving DecidableEq, Repr

/-- An in-memory byte source in the manner of `strings.Reader`, the upstream
of the tests: the state is the unread input; a read on exhausted input returns
`(0, io.EOF)`, any other read copies `min(len(p), remaining)` bytes and
returns that count and a nil error. -/
def bytesReader : Upstream (List Nat) IOErr where
  read s p :=
    if s.length = 0 then { state := s, buf := p, n := 0, err := some IOErr.EOF }
    else
      { state := s.drop (min p.length s.length)
        buf := goCopy p s
        n := (min p.length s.length : Nat)
        err := none }

/-- An upstream that replays a script, one entry per read: each entry is the
bytes it delivers (as many as fit in `p`) and the error it returns with
them. Once the script is over it returns `(0, io.EOF)`. -/
def scriptReader : Upstream (List (List Nat × Option IOErr)) IOErr where
  read s p :=
    match s with
    | [] => { state := [], buf := p, n := 0, err := some IOErr.EOF }
    | (d, e) :: rest =>
      { state := rest, buf := goCopy p d, n := (min p.length d.length : Nat), err := e }

/-- An upstream together with a log of the reads performed on it: every read
is passed to `u` and its count and error are put in front of the log. -/
def Upstream.logged {σ ε : Type} (u : Upstream σ ε) : Upstream (σ × List (Int × Option ε)) ε where
  read s p :=
    let r := u.read s.1 p
    { state := (r.state, (r.n, r.err) :: s.2), buf := r.buf, n := r.n, err := r.err }

/-! ## The scan, byte by byte -/

/-- One iteration of the scan on the byte `b` with stored byte `c`: the stored
byte afterwards and the byte written to the output, if any. -/
def stepByte (c b : Nat) : Nat × Option Nat :=
  if b = CR ∨ b = LF then
    if c ≠ 0 ∧ c ≠ b then (0, none) else (b, some LF)
  else (0, some b)

/-- Whether a byte is a CR or an LF. -/
def isMarker (b : Nat) : Bool := decide (b = CR ∨ b = LF)

/-- The bytes the scan emits for the input `bs`, started with stored byte `c`. -/
def scanOut : Nat → List Nat → List Nat
  | _, [] => []
  | c, b :: bs => (stepByte c b).2.toList ++ scanOut (stepByte c b).1 bs

/-- The stored byte after scanning the input `bs`, started with `c`. -/
def scanState : Nat → List Nat → Nat
  | c, [] => c
  | c, b :: bs => scanState (stepByte c b).1 bs

/-- The number of bytes of `bs` the scan removes, started with `c`. -/
def scanSkipped : Nat → List Nat → Nat
  | _, [] => 0
  | c, b :: bs => (if (stepByte c b).2.isNone then 1 else 0) + scanSkipped (stepByte c b).1 bs

/-- The stored byte the loop leaves for the raw input `p`: unchanged for an
empty slice, else the last raw byte when it is a CR or LF, else `0`. -/
def lastState (c : Nat) (p : List Nat) : Nat :=
  match p.getLast? with
  | none => c
  | some z => if z = CR ∨ z = LF then z else 0

/-- The byte left in the stale tail of the slice: the last raw byte, as LF when
it is a CR or LF. -/
def tailByte (p : List Nat) : Nat :=
  match p.getLast? with
  | none => 0
  | some z => if z = CR ∨ z = LF then LF else z

/-- The block `if n > 0 { n = l.normalize(p[:n]) }` in closed form, for a
count `n` that does not exceed the length of `p`: the stored byte, the
contents of `p` and `n` afterwards (`normalizeFilled_eq`). -/
def filled (c : Nat) (p : List Nat) (n : Int) : Nat × List Nat × Int :=
  if n > 0 then
    (lastState c (p.take n.toNat),
      (scanOut c (p.take n.toNat) ++
        List.replicate (scanSkipped c (p.take n.toNat)) (tailByte (p.take n.toNat))) ++
        p.drop n.toNat,
      ((scanOut c (p.take n.toNat)).length : Int))
  else (c, p, n)

/-! ## The reference fold of the specification -/

/-- The pending marker of the specification: `None`, `SawCR` or `SawLF`. -/
inductive Marker where
  | none
  | sawCR
  | sawLF
deriving DecidableEq, Repr

/-- The stored byte that stands for a pending marker. -/
def Marker.toByte : Marker → Nat
  | Marker.none => 0
  | Marker.sawCR => CR
  | Marker.sawLF => LF

/-- The reference fold, in the words of the specification: a CR or LF byte is
dropped and the marker cleared when the marker is set and of the other kind;
otherwise a CR or LF byte is emitted as LF and the marker set to its kind; any
other byte is emitted unchanged and the marker cleared. It returns the output,
the marker at the end and the number of dropped bytes. -/
def refNormalize : Marker → List Nat → List Nat × Marker × Nat
  | m, [] => ([], m, 0)
  | m, b :: bs =>
    if b = CR then
      match m with
      | Marker.sawLF =>
        let r := refNormalize Marker.none bs
        (r.1, r.2.1, r.2.2 + 1)
      | _ =>
        let r := refNormalize Marker.sawCR bs
        (LF :: r.1, r.2.1, r.2.2)
    else if b = LF then
      match m with
      | Marker.sawCR =>
        let r := refNormalize Marker.none bs
        (r.1, r.2.1, r.2.2 + 1)
      | _ =>
        let r := refNormalize Marker.sawLF bs
        (LF :: r.1, r.2.1, r.2.2)
    else
      let r := refNormalize Marker.none bs
      (b :: r.1, r.2.1, r.2.2)

/-! ## The loop with Go's index and a record of its iterations -/

/-- What one iteration of the scan loop did: the index `i` it examined and
whether it removed the byte there. An iteration reads `p[i]`; it writes `p[i]`
when it rewrites the byte, and it runs `copy(p[i:], p[i+1:])`, which touches
the indices from `i` up to `len(p) - 1`, when it removes the byte. -/
structure Iteration where
  index : Int
  removed : Bool
deriving DecidableEq, Repr

/-- The scan loop of `normalize` once more, now with the index `i` as Go's
`int` and with the list of its iterations. In the removal branch the body runs
`i--` and the loop statement then runs `i++`. An index below zero at `p[i]` is
the run-time panic of an index out of range, given as `none`, as is running
out of fuel. -/
def normalizeRun : Nat → List Nat → Nat → Int → Nat →
    Option ((List Nat × Nat × Nat) × List Iteration)
  | 0, _, _, _, _ => none
  | fuel + 1, p, c, i, skipped =>
    if h : i < (p.length : Int) then
      if h0 : 0 ≤ i then
        have hlt : i.toNat < p.length := by omega
        let b := p[i.toNat]
        if b = CR ∨ b = LF then
          if c ≠ 0 ∧ c ≠ b then
            (normalizeRun fuel
              (p.take i.toNat ++ goCopy (p.drop i.toNat) (p.drop (i.toNat + 1))) 0
              (i - 1 + 1) (skipped + 1)).map
              fun r => (r.1, { index := i, removed := true } :: r.2)
          else
            (normalizeRun fuel (p.set i.toNat LF) b (i + 1) skipped).map
              fun r => (r.1, { index := i, removed := false } :: r.2)
        else
          (normalizeRun fuel p 0 (i + 1) skipped).map
            fun r => (r.1, { index := i, removed := false } :: r.2)
      else none
    else
      some ((p, c, skipped), [])

/-! ## The loop, one iteration at a time -/

theorem goCopy_shift (b : Nat) (tl : List Nat) :
    goCopy (b :: tl) tl = tl ++ (b :: tl).drop tl.length := by
  simp [goCopy]

theorem drop_replicate_last (b z : Nat) (xs : List Nat) (k : Nat) :
    (b :: (xs ++ List.replicate (k + 1) z)).drop (xs ++ List.replicate (k + 1) z).length = [z] := by
  have h : b :: (xs ++ List.replicate (k + 1) z) = (b :: (xs ++ List.replicate k z)) ++ [z] := by
    simp [List.replicate_succ', List.append_assoc]
  have hl : (xs ++ List.replicate (k + 1) z).length = (b :: (xs ++ List.replicate k z)).length := by
    simp; omega
  rw [hl, h, List.drop_left]

/-- One iteration at index `|out|` of the slice `out ++ b :: tl`. -/
theorem normalizeLoop_step (fuel : Nat) (out : List Nat) (b : Nat) (tl : List Nat) (c sk : Nat) :
    normalizeLoop (fuel + 1) (out ++ b :: tl) c out.length sk =
      if b = CR ∨ b = LF then
        if c ≠ 0 ∧ c ≠ b then
          normalizeLoop fuel (out ++ (tl ++ (b :: tl).drop tl.length)) 0 out.length (sk + 1)
        else
          normalizeLoop fuel ((out ++ [LF]) ++ tl) b (out ++ [LF]).length sk
      else
        normalizeLoop fuel ((out ++ [b]) ++ tl) 0 (out ++ [b]).length sk := by
  have hlt : out.length < (out ++ b :: tl).length := by simp
  have hget : (out ++ b :: tl)[out.length] = b := List.getElem_of_append rfl rfl
  rw [normalizeLoop, dif_pos hlt]
  simp only [hget]
  have htake : (out ++ b :: tl).take out.length = out := by simp
  have hdrop : (out ++ b :: tl).drop out.length = b :: tl := by simp
  have hdrop1 : (out ++ b :: tl).drop (out.length + 1) = tl := by
    rw [← List.drop_drop, hdrop]; rfl
  have hset : (out ++ b :: tl).set out.length LF = (out ++ [LF]) ++ tl := by
    simp [List.set_append]
  rw [htake, hdrop, hdrop1, goCopy_shift, hset]
  have hl1 : (out ++ [LF]).length = out.length + 1 := by simp
  have hl2 : (out ++ [b]).length = out.length + 1 := by simp
  have ha : (out ++ [b]) ++ tl = out ++ b :: tl := by simp
  rw [hl1, hl2, ha]

/-- The loop exits at an index past the end of the slice. -/
theorem normalizeLoop_exit (fuel : Nat) (p : List Nat) (c i sk : Nat) (h : p.length ≤ i) :
    normalizeLoop (fuel + 1) p c i sk = some (p, c, sk) := by
  rw [normalizeLoop, dif_neg (by omega)]

/-- More fuel does not change a result. -/
theorem normalizeLoop_mono (k : Nat) : ∀ (fuel : Nat) (p : List Nat) (c i sk : Nat)
    (r : List Nat × Nat × Nat), normalizeLoop fuel p c i sk = some r →
    normalizeLoop (fuel + k) p c i sk = some r := by
  intro fuel
  induction fuel with
  | zero => intro p c i sk r h; simp [normalizeLoop] at h
  | succ f ih =>
    intro p c i sk r h
    have e : f + 1 + k = (f + k) + 1 := by omega
    rw [e]
    rw [normalizeLoop] at h ⊢
    split
    · rename_i hlt
      rw [dif_pos hlt] at h
      simp only at h ⊢
      split
      · rename_i hm
        rw [if_pos hm] at h
        split
        · rename_i hc
          rw [if_pos hc] at h
          exact ih _ _ _ _ _ h
        · rename_i hc
          rw [if_neg hc] at h
          exact ih _ _ _ _ _ h
      · rename_i hm
        rw [if_neg hm] at h
        exact ih _ _ _ _ _ h
    · rename_i hlt
      rw [dif_neg hlt] at h
      exact h

/-! ## The scan on lists -/

theorem scanOut_append (xs ys : List Nat) : ∀ (c : Nat),
    scanOut c (xs ++ ys) = scanOut c xs ++ scanOut (scanState c xs) ys := by
  induction xs with
  | nil => intro c; simp [scanOut, scanState]
  | cons b bs ih => intro c; simp [scanOut, scanState, ih]

theorem scanState_append (xs ys : List Nat) : ∀ (c : Nat),
    scanState c (xs ++ ys) = scanState (scanState c xs) ys := by
  induction xs with
  | nil => intro c; simp [scanState]
  | cons b bs ih => intro c; simp [scanState, ih]

theorem scanSkipped_append (xs ys : List Nat) : ∀ (c : Nat),
    scanSkipped c (xs ++ ys) = scanSkipped c xs + scanSkipped (scanState c xs) ys := by
  induction xs with
  | nil => intro c; simp [scanSkipped, scanState]
  | cons b bs ih => intro c; simp [scanSkipped, scanState, ih, Nat.add_assoc]

/-- Every input byte is either emitted or removed. -/
theorem scan_length (p : List Nat) : ∀ (c : Nat),
    (scanOut c p).length + scanSkipped c p = p.length := by
  induction p with
  | nil => intro c; simp [scanOut, scanSkipped]
  | cons b bs ih =>
    intro c
    have h := ih (stepByte c b).1
    simp only [scanOut, scanSkipped, List.length_append, List.length_cons]
    cases hb : (stepByte c b).2 <;> simp <;> omega

/-! ## The loop and the scan -/

/-- The loop on the raw bytes `rest`, followed in the slice by a block of
copies of `z`: after `|rest|` iterations the output of the scan stands in
their place and the block has grown by the number of removed bytes. -/
theorem normalizeLoop_scan (z : Nat) : ∀ (rest out : List Nat) (k c sk fuel : Nat),
    normalizeLoop (rest.length + fuel) (out ++ (rest ++ List.replicate (k + 1) z)) c out.length sk =
      normalizeLoop fuel
        ((out ++ scanOut c rest) ++ List.replicate (k + 1 + scanSkipped c rest) z)
        (scanState c rest) (out ++ scanOut c rest).length (sk + scanSkipped c rest) := by
  intro rest
  induction rest with
  | nil => intro out k c sk fuel; simp [scanOut, scanState, scanSkipped]
  | cons b bs ih =>
    intro out k c sk fuel
    have e : (b :: bs).length + fuel = (bs.length + fuel) + 1 := by simp; omega
    rw [e, List.cons_append, normalizeLoop_step]
    by_cases hm : b = CR ∨ b = LF
    · rw [if_pos hm]
      by_cases hc : c ≠ 0 ∧ c ≠ b
      · rw [if_pos hc]
        have hs : stepByte c b = (0, none) := by simp [stepByte, hm, hc]
        have hb : bs ++ List.replicate (k + 1) z ++
            (b :: (bs ++ List.replicate (k + 1) z)).drop (bs ++ List.replicate (k + 1) z).length
            = bs ++ List.replicate (k + 1 + 1) z := by
          rw [drop_replicate_last, List.append_assoc, ← List.replicate_succ']
        rw [hb, ih out (k + 1) 0 (sk + 1) fuel]
        simp only [scanOut, scanState, scanSkipped, hs, Option.toList, Option.isNone,
          List.nil_append, if_true]
        have e1 : k + 1 + 1 + scanSkipped 0 bs = k + 1 + (1 + scanSkipped 0 bs) := by omega
        have e2 : sk + 1 + scanSkipped 0 bs = sk + (1 + scanSkipped 0 bs) := by omega
        rw [e1, e2]
      · rw [if_neg hc]
        have hs : stepByte c b = (b, some LF) := by simp [stepByte, hm, hc]
        rw [ih (out ++ [LF]) k b sk fuel]
        simp [scanOut, scanState, scanSkipped, hs, Option.toList, Option.isNone]
    · rw [if_neg hm]
      have hs : stepByte c b = (0, some b) := by simp [stepByte, hm]
      rw [ih (out ++ [b]) k 0 sk fuel]
      simp [scanOut, scanState, scanSkipped, hs, Option.toList, Option.isNone]

/-- A block of copies of a CR or LF byte `z`, met with stored byte `0` or `z`:
every copy is rewritten to LF, none is removed. -/
theorem normalizeLoop_block_marker (z : Nat) (hz : z = CR ∨ z = LF) :
    ∀ (j : Nat) (out : List Nat) (c sk : Nat), (c = 0 ∨ c = z) →
    normalizeLoop (j + 1) (out ++ List.replicate j z) c out.length sk =
      some (out ++ List.replicate j LF, if j = 0 then c else z, sk) := by
  intro j
  induction j with
  | zero => intro out c sk _; simp [normalizeLoop]
  | succ j ih =>
    intro out c sk hc
    rw [List.replicate_succ, normalizeLoop_step, if_pos hz, if_neg (by omega),
      ih (out ++ [LF]) z sk (Or.inr rfl)]
    simp [List.replicate_succ]

/-- A block of copies of a byte `z` other than CR and LF is left as it is. -/
theorem normalizeLoop_block_other (z : Nat) (hz : ¬ (z = CR ∨ z = LF)) :
    ∀ (j : Nat) (out : List Nat) (c sk : Nat),
    normalizeLoop (j + 1) (out ++ List.replicate j z) c out.length sk =
      some (out ++ List.replicate j z, if j = 0 then c else 0, sk) := by
  intro j
  induction j with
  | zero => intro out c sk; simp [normalizeLoop]
  | succ j ih =>
    intro out c sk
    rw [List.replicate_succ, normalizeLoop_step, if_neg hz, ih (out ++ [z]) 0 sk]
    simp [List.replicate_succ]

/-- The last raw byte `z` and the stale copies of it behind: the scan of `z`
decides what is emitted, and the stale copies are then scanned without any
further removal. -/
theorem normalizeLoop_last (z j : Nat) (out : List Nat) (c sk : Nat) :
    normalizeLoop (j + 3) (out ++ List.replicate (j + 1) z) c out.length sk =
      some ((out ++ scanOut c [z]) ++ List.replicate (j + scanSkipped c [z]) (tailByte [z]),
        lastState c [z], sk + scanSkipped c [z]) := by
  by_cases hm : z = CR ∨ z = LF
  · have ht : tailByte [z] = LF := by simp [tailByte, hm]
    have hl : lastState c [z] = z := by simp [lastState, hm]
    by_cases hc : c ≠ 0 ∧ c ≠ z
    · have hs : stepByte c z = (0, none) := by simp [stepByte, hm, hc]
      have hd : (z :: List.replicate j z).drop (List.replicate j z).length = [z] := by
        have h1 : z :: List.replicate j z = List.replicate j z ++ [z] := by
          rw [← List.replicate_succ, List.replicate_succ']
        rw [h1, List.drop_left]
      have hb := normalizeLoop_block_marker z hm (j + 1) out 0 (sk + 1) (Or.inl rfl)
      rw [List.replicate_succ, normalizeLoop_step, if_pos hm, if_pos hc, hd,
        ← List.replicate_succ', hb]
      simp [scanOut, scanSkipped, hs, ht, hl, Option.toList, Option.isNone]
    · have hs : stepByte c z = (z, some LF) := by simp [stepByte, hm, hc]
      have hb := normalizeLoop_block_marker z hm (j + 1) out c sk (by omega)
      rw [normalizeLoop_mono 1 _ _ _ _ _ _ hb]
      simp [scanOut, scanSkipped, hs, ht, hl, Option.toList, Option.isNone, List.replicate_succ]
  · have ht : tailByte [z] = z := by simp [tailByte, hm]
    have hl : lastState c [z] = 0 := by simp [lastState, hm]
    have hs : stepByte c z = (0, some z) := by simp [stepByte, hm]
    have hb := normalizeLoop_block_other z hm (j + 1) out c sk
    rw [normalizeLoop_mono 1 _ _ _ _ _ _ hb]
    simp [scanOut, scanSkipped, hs, ht, hl, Option.toList, Option.isNone, List.replicate_succ]

theorem lastState_concat (c : Nat) (init : List Nat) (z : Nat) :
    lastState c (init ++ [z]) = lastState (scanState c init) [z] := by
  simp [lastState]

theorem tailByte_concat (init : List Nat) (z : Nat) : tailByte (init ++ [z]) = tailByte [z] := by
  simp [tailByte]

/-- The whole of `normalize`, in closed form: it returns on every slice and
every stored byte; the returned prefix is the output of the scan, the rest of
the slice is filled with the last byte, and the stored byte is the one of
`lastState`. -/
theorem normalize_eq (p : List Nat) (c : Nat) :
    normalize p c = some
      { buf := scanOut c p ++ List.replicate (scanSkipped c p) (tailByte p)
        c := lastState c p
        n := ((scanOut c p).length : Int) } := by
  rcases List.eq_nil_or_concat p with rfl | ⟨init, z, hp⟩
  · simp [normalize, normalizeLoop, scanOut, scanSkipped, lastState]
  · rw [List.concat_eq_append] at hp
    subst hp
    have hlen := scan_length init c
    have hle : scanSkipped c init ≤ init.length := by omega
    have hfuel : 2 * (init ++ [z]).length + 1
        = init.length + ((scanSkipped c init + 3) + (init.length - scanSkipped c init)) := by
      simp; omega
    have h1 := normalizeLoop_scan z init [] 0 c 0
      ((scanSkipped c init + 3) + (init.length - scanSkipped c init))
    have h2 := normalizeLoop_last z (scanSkipped c init) (scanOut c init) (scanState c init)
      (scanSkipped c init)
    have h3 := normalizeLoop_mono (init.length - scanSkipped c init) _ _ _ _ _ _ h2
    have e1 : 0 + 1 + scanSkipped c init = scanSkipped c init + 1 := by omega
    simp only [List.nil_append, List.length_nil, Nat.zero_add, e1] at h1
    have hrun : normalizeLoop (2 * (init ++ [z]).length + 1) (init ++ [z]) c 0 0 =
        some ((scanOut c init ++ scanOut (scanState c init) [z]) ++
          List.replicate (scanSkipped c init + scanSkipped (scanState c init) [z]) (tailByte [z]),
          lastState (scanState c init) [z],
          scanSkipped c init + scanSkipped (scanState c init) [z]) := by
      rw [hfuel]
      simp only [List.replicate_one] at h1
      rw [h1, h3]
    rw [normalize, hrun]
    simp only [Option.map_some', scanOut_append, scanSkipped_append, lastState_concat,
      tailByte_concat, List.length_append, List.length_replicate]
    congr 1
    simp only [Normalized.mk.injEq, true_and]
    push_cast
    ring

/-- The prefix handed back by `normalize` is the output of the scan. -/
theorem out_scan (c : Nat) (p : List Nat) (k x y : Nat) :
    Normalized.out
      { buf := scanOut c p ++ List.replicate k x
        c := y
        n := ((scanOut c p).length : Int) } = scanOut c p := by
  simp [Normalized.out]

/-- The bytes handed back by `normalize`, in closed form. -/
theorem normalize_out_eq (p : List Nat) (c : Nat) :
    (normalize p c).map Normalized.out = some (scanOut c p) := by
  rw [normalize_eq, Option.map_some', out_scan]

/-- A CR or LF byte that the scan emits becomes the stored byte. -/
theorem scanState_of_emitted (c : Nat) (s : List Nat) (m : Nat) (hm : m = CR ∨ m = LF)
    (h : scanOut c (s ++ [m]) = scanOut c s ++ [LF]) : scanState c (s ++ [m]) = m := by
  rw [scanOut_append] at h
  rw [scanState_append]
  have h1 := List.append_cancel_left h
  by_cases hc : scanState c s ≠ 0 ∧ scanState c s ≠ m
  · simp [scanOut, stepByte, hm, hc] at h1
  · simp [scanState, stepByte, hm, hc]

/-- The scan with a stored byte that stands for a marker is the reference
fold of the specification. -/
theorem scan_ref (p : List Nat) : ∀ (m : Marker),
    scanOut m.toByte p = (refNormalize m p).1 ∧
    scanSkipped m.toByte p = (refNormalize m p).2.2 ∧
    scanState m.toByte p = (refNormalize m p).2.1.toByte := by
  induction p with
  | nil => intro m; simp [scanOut, scanSkipped, scanState, refNormalize]
  | cons b bs ih =>
    intro m
    have h0 := ih Marker.none
    have h1 := ih Marker.sawCR
    have h2 := ih Marker.sawLF
    simp only [Marker.toByte] at h0 h1 h2
    by_cases hcr : b = 13
    · subst hcr
      cases m <;>
        simp [scanOut, scanSkipped, scanState, refNormalize, stepByte, Marker.toByte, h0, h1, h2,
          Nat.add_comm]
    · by_cases hlf : b = 10
      · subst hlf
        cases m <;>
          simp [scanOut, scanSkipped, scanState, refNormalize, stepByte, Marker.toByte, h0, h1,
            h2, Nat.add_comm]
      · cases m <;>
          simp [scanOut, scanSkipped, scanState, refNormalize, stepByte, Marker.toByte, h0, h1,
            h2, hcr, hlf]

/-! ## What the scan keeps -/

theorem scanOut_filter (p : List Nat) : ∀ (c : Nat),
    (scanOut c p).filter (fun b => !isMarker b) = p.filter (fun b => !isMarker b) := by
  induction p with
  | nil => intro c; simp [scanOut]
  | cons b bs ih =>
    intro c
    by_cases hm : b = CR ∨ b = LF
    · have hb : isMarker b = true := by simp [isMarker, hm]
      have hl : isMarker LF = true := by decide
      by_cases hc : c ≠ 0 ∧ c ≠ b
      · simp only [scanOut, stepByte, if_pos hm, if_pos hc, Option.toList, List.nil_append]
        rw [ih, List.filter_cons_of_neg (by simp [hb])]
      · simp only [scanOut, stepByte, if_pos hm, if_neg hc, Option.toList, List.singleton_append]
        rw [List.filter_cons_of_neg (by simp [hl]), ih, List.filter_cons_of_neg (by simp [hb])]
    · have hb : isMarker b = false := by simp [isMarker, hm]
      simp only [scanOut, stepByte, if_neg hm, Option.toList, List.singleton_append]
      rw [List.filter_cons_of_pos (by simp [hb]), ih, List.filter_cons_of_pos (by simp [hb])]

theorem scan_of_no_marker (p : List Nat) : ∀ (c : Nat), (∀ b ∈ p, b ≠ CR ∧ b ≠ LF) →
    scanOut c p = p ∧ scanSkipped c p = 0 := by
  induction p with
  | nil => intro c _; simp [scanOut, scanSkipped]
  | cons b bs ih =>
    intro c h
    have hb : ¬ (b = CR ∨ b = LF) := by
      have := h b (List.mem_cons_self _ _)
      omega
    have ht := ih 0 (fun x hx => h x (List.mem_cons_of_mem _ hx))
    simp [scanOut, scanSkipped, stepByte, hb, ht]

theorem scanOut_no_CR (p : List Nat) : ∀ (c : Nat), ∀ b ∈ scanOut c p, b ≠ CR := by
  induction p with
  | nil => intro c b hb; simp [scanOut] at hb
  | cons x xs ih =>
    intro c b hb
    by_cases hm : x = CR ∨ x = LF
    · by_cases hc : c ≠ 0 ∧ c ≠ x
      · simp only [scanOut, stepByte, if_pos hm, if_pos hc, Option.toList, List.nil_append] at hb
        exact ih _ b hb
      · simp only [scanOut, stepByte, if_pos hm, if_neg hc, Option.toList, List.singleton_append,
          List.mem_cons] at hb
        rcases hb with hb | hb
        · rw [hb]; decide
        · exact ih _ b hb
    · simp only [scanOut, stepByte, if_neg hm, Option.toList, List.singleton_append,
        List.mem_cons] at hb
      rcases hb with hb | hb
      · rw [hb]; exact fun h => hm (Or.inl h)
      · exact ih _ b hb

theorem scanOut_sublist_map (p : List Nat) : ∀ (c : Nat), ∃ kept : List Nat,
    kept.Sublist p ∧
    kept.filter (fun b => !isMarker b) = p.filter (fun b => !isMarker b) ∧
    scanOut c p = kept.map (fun b => if b = CR ∨ b = LF then LF else b) := by
  induction p with
  | nil => intro c; exact ⟨[], List.Sublist.slnil, rfl, by simp [scanOut]⟩
  | cons x xs ih =>
    intro c
    by_cases hm : x = CR ∨ x = LF
    · have hx : isMarker x = true := by simp [isMarker, hm]
      by_cases hc : c ≠ 0 ∧ c ≠ x
      · obtain ⟨k, hk, hf, he⟩ := ih 0
        refine ⟨k, hk.cons x, ?_, by simp [scanOut, stepByte, hm, hc, he]⟩
        rw [List.filter_cons_of_neg (by simp [hx]), hf]
      · obtain ⟨k, hk, hf, he⟩ := ih x
        refine ⟨x :: k, hk.cons₂ x, ?_, by simp [scanOut, stepByte, hm, hc, he]⟩
        rw [List.filter_cons_of_neg (by simp [hx]), List.filter_cons_of_neg (by simp [hx]), hf]
    · have hx : isMarker x = false := by simp [isMarker, hm]
      obtain ⟨k, hk, hf, he⟩ := ih 0
      refine ⟨x :: k, hk.cons₂ x, ?_, by simp [scanOut, stepByte, hm, he]⟩
      rw [List.filter_cons_of_pos (by simp [hx]), List.filter_cons_of_pos (by simp [hx]), hf]

/-! ## Read in closed form -/

theorem normalizeFilled_eq (c : Nat) (p : List Nat) (n : Int) (h : n ≤ (p.length : Int)) :
    normalizeFilled c p n = some (filled c p n) := by
  unfold normalizeFilled filled
  split
  · rw [normalize_eq]; rfl
  · rfl

/-- A count above the length of the buffer is outside the model. -/
theorem normalizeFilled_none (c : Nat) (p : List Nat) (n : Int) (h : (p.length : Int) < n) :
    normalizeFilled c p n = none := by
  unfold normalizeFilled
  rw [if_pos (by omega), if_neg (by omega)]

/-- The method `Read` in closed form, when the counts of its upstream reads
stay within the buffer: it returns. -/
theorem Read_eq {σ ε : Type} (u : Upstream σ ε) (l : LFNormalizer σ) (p : List Nat)
    (h1 : (u.read l.r p).n ≤ ((u.read l.r p).buf.length : Int))
    (h2 : (u.read (u.read l.r p).state
        (filled l.c (u.read l.r p).buf (u.read l.r p).n).2.1).n ≤
      ((u.read (u.read l.r p).state
        (filled l.c (u.read l.r p).buf (u.read l.r p).n).2.1).buf.length : Int)) :
    Read u l p = some
      (if (filled l.c (u.read l.r p).buf (u.read l.r p).n).2.2 = 0 ∧ p.length ≠ 0 ∧
          (u.read l.r p).err.isNone then
        { l :=
            { r := (u.read (u.read l.r p).state
                (filled l.c (u.read l.r p).buf (u.read l.r p).n).2.1).state
              c := (filled (filled l.c (u.read l.r p).buf (u.read l.r p).n).1
                (u.read (u.read l.r p).state
                  (filled l.c (u.read l.r p).buf (u.read l.r p).n).2.1).buf
                (u.read (u.read l.r p).state
                  (filled l.c (u.read l.r p).buf (u.read l.r p).n).2.1).n).1 }
          buf := (filled (filled l.c (u.read l.r p).buf (u.read l.r p).n).1
                (u.read (u.read l.r p).state
                  (filled l.c (u.read l.r p).buf (u.read l.r p).n).2.1).buf
                (u.read (u.read l.r p).state
                  (filled l.c (u.read l.r p).buf (u.read l.r p).n).2.1).n).2.1
          n := (filled (filled l.c (u.read l.r p).buf (u.read l.r p).n).1
                (u.read (u.read l.r p).state
                  (filled l.c (u.read l.r p).buf (u.read l.r p).n).2.1).buf
                (u.read (u.read l.r p).state
                  (filled l.c (u.read l.r p).buf (u.read l.r p).n).2.1).n).2.2
          err := (u.read (u.read l.r p).state
                (filled l.c (u.read l.r p).buf (u.read l.r p).n).2.1).err }
      else
        { l := { r := (u.read l.r p).state
                 c := (filled l.c (u.read l.r p).buf (u.read l.r p).n).1 }
          buf := (filled l.c (u.read l.r p).buf (u.read l.r p).n).2.1
          n := (filled l.c (u.read l.r p).buf (u.read l.r p).n).2.2
          err := (u.read l.r p).err }) := by
  unfold Read
  simp only [normalizeFilled_eq _ _ _ h1]
  split
  · simp only [normalizeFilled_eq _ _ _ h2]
  · rfl

theorem filled_of_pos (c : Nat) (p : List Nat) (n : Int) (h : 0 < n) :
    filled c p n = (lastState c (p.take n.toNat),
      (scanOut c (p.take n.toNat) ++
        List.replicate (scanSkipped c (p.take n.toNat)) (tailByte (p.take n.toNat))) ++
        p.drop n.toNat,
      ((scanOut c (p.take n.toNat)).length : Int)) := by
  unfold filled
  rw [if_pos h]

theorem filled_of_nonpos (c : Nat) (p : List Nat) (n : Int) (h : ¬ 0 < n) :
    filled c p n = (c, p, n) := by
  unfold filled
  rw [if_neg h]

/-- The block never changes the length of the buffer. -/
theorem filled_length (c : Nat) (p : List Nat) (n : Int) :
    (filled c p n).2.1.length = p.length := by
  by_cases h : 0 < n
  · have hl := scan_length (p.take n.toNat) c
    rw [filled_of_pos c p n h]
    simp only [List.length_append, List.length_replicate, List.length_drop]
    rw [hl, List.length_take]
    omega
  · rw [filled_of_nonpos c p n h]

/-- The count after the block is at most the raw count, and not negative when
the raw count is not. -/
theorem filled_count (c : Nat) (p : List Nat) (n : Int) :
    (filled c p n).2.2 ≤ n ∧ (0 ≤ n → 0 ≤ (filled c p n).2.2) := by
  by_cases h : 0 < n
  · have hl := scan_length (p.take n.toNat) c
    have ht : (p.take n.toNat).length ≤ n.toNat := by
      rw [List.length_take]; exact Nat.min_le_left _ _
    rw [filled_of_pos c p n h]
    simp only
    omega
  · rw [filled_of_nonpos c p n h]
    simp

/-- The prefix of the buffer the block hands back: the output of the scan on
the raw bytes, or nothing when the raw count is not positive. -/
theorem filled_out (c : Nat) (p : List Nat) (n : Int) :
    (filled c p n).2.1.take (filled c p n).2.2.toNat =
      if 0 < n then scanOut c (p.take n.toNat) else p.take n.toNat := by
  by_cases h : 0 < n
  · rw [filled_of_pos c p n h, if_pos h]
    simp [List.take_append_eq_append_take]
  · rw [filled_of_nonpos c p n h, if_neg h]

/-! ## The logged upstream -/

theorem logged_state {σ ε : Type} (u : Upstream σ ε) (s : σ) (log : List (Int × Option ε))
    (p : List Nat) :
    (u.logged.read (s, log) p).state = ((u.read s p).state, ((u.read s p).n, (u.read s p).err) :: log) :=
  rfl

theorem logged_buf {σ ε : Type} (u : Upstream σ ε) (x : σ × List (Int × Option ε))
    (p : List Nat) : (u.logged.read x p).buf = (u.read x.1 p).buf :=
  rfl

theorem logged_n {σ ε : Type} (u : Upstream σ ε) (x : σ × List (Int × Option ε))
    (p : List Nat) : (u.logged.read x p).n = (u.read x.1 p).n :=
  rfl

theorem logged_err {σ ε : Type} (u : Upstream σ ε) (x : σ × List (Int × Option ε))
    (p : List Nat) : (u.logged.read x p).err = (u.read x.1 p).err :=
  rfl

/-- The in-memory source keeps to the contract of `io.Reader`: the buffer keeps
its length and the count lies between 0 and that length. -/
theorem bytesReader_wellBehaved (s q : List Nat) :
    (bytesReader.read s q).buf.length = q.length ∧ 0 ≤ (bytesReader.read s q).n ∧
      (bytesReader.read s q).n ≤ (q.length : Int) := by
  unfold bytesReader
  simp only
  split
  · simp
  · simp only [goCopy, List.length_append, List.length_take, List.length_drop]
    omega

/-- The scripted upstream keeps to the contract of `io.Reader` as well. -/
theorem scriptReader_wellBehaved (s : List (List Nat × Option IOErr)) (q : List Nat) :
    (scriptReader.read s q).buf.length = q.length ∧ 0 ≤ (scriptReader.read s q).n ∧
      (scriptReader.read s q).n ≤ (q.length : Int) := by
  unfold scriptReader
  cases s with
  | nil => simp
  | cons x rest =>
    obtain ⟨d, e⟩ := x
    simp only [goCopy, List.length_append, List.length_take, List.length_drop]
    omega

/-- The contract of `io.Reader` passes from an upstream to its logged form. -/
theorem logged_contract {σ ε : Type} (u : Upstream σ ε)
    (hw : ∀ (t : σ) (q : List Nat), (u.read t q).buf.length = q.length ∧ 0 ≤ (u.read t q).n ∧
      (u.read t q).n ≤ (q.length : Int)) :
    ∀ (t : σ × List (Int × Option ε)) (q : List Nat),
      (u.logged.read t q).buf.length = q.length ∧ 0 ≤ (u.logged.read t q).n ∧
        (u.logged.read t q).n ≤ (q.length : Int) :=
  fun t q => hw t.1 q

/-- Under the contract of `io.Reader` the counts of both upstream reads of a
call of `Read` stay within the buffer. -/
theorem contract_bounds {σ ε : Type} (u : Upstream σ ε) (l : LFNormalizer σ) (p : List Nat)
    (hw : ∀ (t : σ) (q : List Nat), (u.read t q).buf.length = q.length ∧ 0 ≤ (u.read t q).n ∧
      (u.read t q).n ≤ (q.length : Int)) :
    (u.read l.r p).n ≤ ((u.read l.r p).buf.length : Int) ∧
    (u.read (u.read l.r p).state
        (filled l.c (u.read l.r p).buf (u.read l.r p).n).2.1).n ≤
      ((u.read (u.read l.r p).state
        (filled l.c (u.read l.r p).buf (u.read l.r p).n).2.1).buf.length : Int) := by
  constructor
  · obtain ⟨h1, _, h3⟩ := hw l.r p
    omega
  · obtain ⟨h1, _, h3⟩ := hw (u.read l.r p).state
      (filled l.c (u.read l.r p).buf (u.read l.r p).n).2.1
    omega

/-- Logging changes nothing else: `Read` over the logged upstream returns
what `Read` over the upstream itself returns. -/
theorem Read_logged {σ ε : Type} (u : Upstream σ ε) (s : σ) (log : List (Int × Option ε))
    (c : Nat) (p : List Nat) :
    (Read u.logged { r := (s, log), c := c } p).map
        (fun o => (o.l.r.1, o.l.c, o.buf, o.n, o.err)) =
      (Read u { r := s, c := c } p).map (fun o => (o.l.r, o.l.c, o.buf, o.n, o.err)) := by
  unfold Read
  simp only [logged_state, logged_buf, logged_n, logged_err]
  cases normalizeFilled c (u.read s p).buf (u.read s p).n with
  | none => rfl
  | some x =>
    obtain ⟨c1, p1, n1⟩ := x
    simp only
    split
    · cases normalizeFilled c1 (u.read (u.read s p).state p1).buf
        (u.read (u.read s p).state p1).n with
      | none => rfl
      | some y => rfl
    · rfl

/-! ## The model on inputs of the tests -/

/-- Rows of the table of `TestLFNormalizer_Read` (multiple CRLF; previous CR,
now LF, eof; short read; 0 read) and the reads of `TestLFNormalizer_MultiRead`
up to the fourth. -/
theorem Read_on_tests :
    (Read bytesReader { r := [CR, LF, CR, LF, CR, LF], c := 0 } (List.replicate 6 0)).map
        (fun o => (o.out, o.n, o.err)) = some ([LF, LF, LF], 3, none) ∧
    (Read bytesReader { r := [LF], c := CR } (List.replicate 6 0)).map
        (fun o => (o.out, o.n, o.err)) = some ([], 0, some IOErr.EOF) ∧
    (Read bytesReader { r := [104, LF, CR, LF, CR], c := 0 } (List.replicate 3 0)).map
        (fun o => (o.out, o.n, o.err)) = some ([104, LF], 2, none) ∧
    (Read bytesReader { r := [115, 116, 114], c := 0 } []).map
        (fun o => (o.out, o.n, o.err)) = some ([], 0, none) ∧
    readSizes bytesReader
        (NewLFNormalizer [116, 104, 105, 115, LF, CR, 105, 115, CR, LF, 97, LF, 116, 101, 115,
          116, CR, 33, CR, LF]) [5, 1, 3, 9] =
      some [116, 104, 105, 115, LF, 105, 115, LF, 97, LF, 116, 101, 115, 116, LF, 33, LF] := by
  decide

/-! ## The scan on runs of line endings -/

theorem scanOut_crlf (n : Nat) :
    scanOut 0 (List.replicate n [CR, LF]).flatten = List.replicate n LF := by
  induction n with
  | zero => simp [scanOut]
  | succ n ih => simp [List.replicate_succ, scanOut, stepByte, ih]

theorem scanOut_lfcr (n : Nat) :
    scanOut 0 (List.replicate n [LF, CR]).flatten = List.replicate n LF := by
  induction n with
  | zero => simp [scanOut]
  | succ n ih => simp [List.replicate_succ, scanOut, stepByte, ih]

theorem scanOut_same_kind (m : Nat) (hm : m = CR ∨ m = LF) : ∀ (n c : Nat), (c = 0 ∨ c = m) →
    scanOut c (List.replicate n m) = List.replicate n LF := by
  intro n
  induction n with
  | zero => intro c _; simp [scanOut]
  | succ n ih =>
    intro c hc
    have hs : stepByte c m = (m, some LF) := by
      have : ¬ (c ≠ 0 ∧ c ≠ m) := by omega
      simp [stepByte, hm, this]
    simp [List.replicate_succ, scanOut, hs, ih m (Or.inr rfl)]

theorem scanOut_of_no_CR (p : List Nat) : ∀ (c : Nat), (c = 0 ∨ c = LF) → (∀ b ∈ p, b ≠ CR) →
    scanOut c p = p := by
  induction p with
  | nil => intro c _ _; simp [scanOut]
  | cons b bs ih =>
    intro c hc h
    have hb : b ≠ CR := h b (List.mem_cons_self _ _)
    have ht : ∀ x ∈ bs, x ≠ CR := fun x hx => h x (List.mem_cons_of_mem _ hx)
    by_cases hl : b = LF
    · have hs : stepByte c b = (LF, some LF) := by
        have : ¬ (c ≠ 0 ∧ c ≠ LF) := by omega
        simp [stepByte, hl, this]
      simp only [scanOut, hs, Option.toList, List.singleton_append]
      rw [ih LF (Or.inr rfl) ht, hl]
    · have hs : stepByte c b = (0, some b) := by simp [stepByte, hb, hl]
      simp only [scanOut, hs, Option.toList, List.singleton_append]
      rw [ih 0 (Or.inl rfl) ht]

/-! ## The recorded loop -/

/-- Neither rewriting a byte nor closing a gap changes the length of the
slice. -/
theorem shift_length (p : List Nat) (i : Nat) (h : i < p.length) :
    (p.take i ++ goCopy (p.drop i) (p.drop (i + 1))).length = p.length := by
  simp only [goCopy, List.length_append, List.length_take, List.length_drop]
  omega

/-- The recorded loop computes what the loop computes. -/
theorem normalizeRun_state : ∀ (fuel : Nat) (p : List Nat) (c j sk : Nat),
    (normalizeRun fuel p c (j : Int) sk).map Prod.fst = normalizeLoop fuel p c j sk := by
  intro fuel
  induction fuel with
  | zero => intro p c j sk; rfl
  | succ f ih =>
    intro p c j sk
    rw [normalizeRun, normalizeLoop]
    by_cases hlt : j < p.length
    · have hi : (j : Int) < (p.length : Int) := by omega
      have h0 : (0 : Int) ≤ (j : Int) := by omega
      have e1 : (j : Int) - 1 + 1 = ((j : Nat) : Int) := by omega
      have e2 : (j : Int) + 1 = ((j + 1 : Nat) : Int) := by omega
      rw [dif_pos hi, dif_pos h0, dif_pos hlt]
      simp only [Int.toNat_ofNat, Option.map_map]
      split
      · split
        · rw [e1, ← ih]
          cases normalizeRun f _ 0 (j : Int) (sk + 1) <;> rfl
        · rw [e2, ← ih]
          cases normalizeRun f _ _ ((j + 1 : Nat) : Int) sk <;> rfl
      · rw [e2, ← ih]
        cases normalizeRun f _ 0 ((j + 1 : Nat) : Int) sk <;> rfl
    · have hi : ¬ ((j : Int) < (p.length : Int)) := by omega
      rw [dif_neg hi, dif_neg hlt]
      rfl

/-- What the record of a finished loop looks like: it is shorter than the
fuel, every index in it lies within the slice, no two removals follow one
another, and after a stored byte 0 it does not open with a removal. -/
theorem normalizeRun_record : ∀ (fuel : Nat) (p : List Nat) (c : Nat) (i : Int) (sk : Nat)
    (st : List Nat × Nat × Nat) (tr : List Iteration),
    normalizeRun fuel p c i sk = some (st, tr) →
    tr.length + 1 ≤ fuel ∧
    (∀ e ∈ tr, 0 ≤ e.index ∧ e.index < (p.length : Int)) ∧
    tr.Chain' (fun a b => ¬ (a.removed = true ∧ b.removed = true)) ∧
    (c = 0 → ∀ e ∈ tr.head?, e.removed = false) := by
  intro fuel
  induction fuel with
  | zero => intro p c i sk st tr h; simp [normalizeRun] at h
  | succ f ih =>
    intro p c i sk st tr h
    rw [normalizeRun] at h
    by_cases hi : i < (p.length : Int)
    · rw [dif_pos hi] at h
      by_cases h0 : 0 ≤ i
      · rw [dif_pos h0] at h
        have hlt : i.toNat < p.length := by omega
        simp only at h
        split at h
        · split at h
          · rename_i hm hc
            obtain ⟨r, hr, he⟩ := Option.map_eq_some'.mp h
            obtain ⟨rst, rtr⟩ := r
            obtain ⟨h1, h2, h3, h4⟩ := ih _ _ _ _ _ _ hr
            simp only [Prod.mk.injEq] at he
            obtain ⟨-, rfl⟩ := he
            rw [shift_length p i.toNat hlt] at h2
            refine ⟨by simp; omega, ?_, ?_, ?_⟩
            · intro e he
              rcases List.mem_cons.mp he with rfl | he
              · exact ⟨h0, hi⟩
              · exact h2 e he
            · rw [List.chain'_cons']
              refine ⟨?_, h3⟩
              intro e he hb
              have := h4 rfl e he
              simp [this] at hb
            · intro hc0
              exact absurd hc0 hc.1
          · obtain ⟨r, hr, he⟩ := Option.map_eq_some'.mp h
            obtain ⟨rst, rtr⟩ := r
            obtain ⟨h1, h2, h3, h4⟩ := ih _ _ _ _ _ _ hr
            simp only [Prod.mk.injEq] at he
            obtain ⟨-, rfl⟩ := he
            rw [List.length_set] at h2
            refine ⟨by simp; omega, ?_, ?_, ?_⟩
            · intro e he
              rcases List.mem_cons.mp he with rfl | he
              · exact ⟨h0, hi⟩
              · exact h2 e he
            · rw [List.chain'_cons']
              exact ⟨fun e _ hb => by simp at hb, h3⟩
            · intro _ e he
              simp only [List.head?_cons, Option.mem_def, Option.some.injEq] at he
              rw [← he]
        · obtain ⟨r, hr, he⟩ := Option.map_eq_some'.mp h
          obtain ⟨rst, rtr⟩ := r
          obtain ⟨h1, h2, h3, h4⟩ := ih _ _ _ _ _ _ hr
          simp only [Prod.mk.injEq] at he
          obtain ⟨-, rfl⟩ := he
          refine ⟨by simp; omega, ?_, ?_, ?_⟩
          · intro e he
            rcases List.mem_cons.mp he with rfl | he
            · exact ⟨h0, hi⟩
            · exact h2 e he
          · rw [List.chain'_cons']
            exact ⟨fun e _ hb => by simp at hb, h3⟩
          · intro _ e he
            simp only [List.head?_cons, Option.mem_def, Option.some.injEq] at he
            rw [← he]
      · rw [dif_neg h0] at h
        simp at h
    · rw [dif_neg hi] at h
      simp only [Option.some.injEq, Prod.mk.injEq] at h
      obtain ⟨-, rfl⟩ := h
      simp

/-- The stored byte after `normalize` on a slice that is not empty: the last
raw byte when it is a CR or LF, else 0. -/
theorem lastState_of_ne_nil (c : Nat) (p : List Nat) (hp : p ≠ []) :
    lastState c p = if p.getLast hp = CR ∨ p.getLast hp = LF then p.getLast hp else 0 := by
  unfold lastState
  rw [List.getLast?_eq_getLast p hp]

/-- The loop of `normalize` returns with the fuel that `normalize` gives it. -/
theorem normalizeLoop_returns (p : List Nat) (c : Nat) :
    ∃ st, normalizeLoop (2 * p.length + 1) p c 0 0 = some st := by
  have h := normalize_eq p c
  unfold normalize at h
  obtain ⟨st, hst, _⟩ := Option.map_eq_some'.mp h
  exact ⟨st, hst⟩

/-! ## Properties of the specification -/

/-- C1 (chunk invariance), evaluated where the code departs from it: the
input CR LF CR normalized in the two chunks CR LF and CR gives the single
byte LF, while one pass over the whole input gives LF LF; likewise through
`Read` with buffers of sizes 2, 1, 1 against one buffer of size 3. The first
chunk leaves the stored byte LF behind, not 0: the stale copy of the removed
LF at the end of the slice is scanned again. -/
theorem chunk_invariance_fails :
    normalize [CR, LF] 0 = some { buf := [LF, LF], c := LF, n := 1 } ∧
    normalizeChunks 0 [[CR, LF], [CR]] = some ([LF], CR) ∧
    (normalize [CR, LF, CR] 0).map Normalized.out = some [LF, LF] ∧
    readSizes bytesReader (NewLFNormalizer [CR, LF, CR]) [2, 1, 1] = some [LF] ∧
    readSizes bytesReader (NewLFNormalizer [CR, LF, CR]) [3] = some [LF, LF] := by
  decide

/-- C2 (single-pass correctness): on every slice `p` and every pending marker,
`normalize` returns; the returned length is `len(p)` minus the number of bytes
the reference fold drops, the slice keeps its length, and the first that many
bytes of the slice are the output of the reference fold on the original
bytes. -/
theorem normalize_single_pass (p : List Nat) (m : Marker) :
    ∃ r, normalize p m.toByte = some r ∧
      r.n = (p.length : Int) - ((refNormalize m p).2.2 : Int) ∧
      r.buf.length = p.length ∧
      r.buf.take r.n.toNat = (refNormalize m p).1 := by
  obtain ⟨ho, hs, _⟩ := scan_ref p m
  have hlen := scan_length p m.toByte
  refine ⟨_, normalize_eq p m.toByte, ?_, ?_, ?_⟩
  · simp only
    rw [← hs]
    omega
  · simp only [List.length_append, List.length_replicate]
    omega
  · rw [← ho]
    exact out_scan m.toByte p _ _ _

/-- C3 (split two-byte line ending): when the chunk `s ++ [m]` normalized on a
fresh reader emits the CR or LF byte `m` as a line feed, the next chunk
`m2 :: t`, with `m2` the marker of the other kind, normalized on the same
reader gives exactly what `t` gives on a fresh reader (so `m2` contributes no
byte), and the two outputs together are the one-pass output for
`s ++ [m, m2] ++ t` on a fresh reader. -/
theorem split_line_ending (s t : List Nat) (m m2 : Nat)
    (hm : (m = CR ∧ m2 = LF) ∨ (m = LF ∧ m2 = CR))
    (hemit : (normalize (s ++ [m]) 0).map Normalized.out =
      (normalize s 0).map fun r => r.out ++ [LF]) :
    ∃ r1 r2 rt rAll,
      normalize (s ++ [m]) 0 = some r1 ∧
      normalize (m2 :: t) r1.c = some r2 ∧
      normalize t 0 = some rt ∧
      normalize (s ++ [m, m2] ++ t) 0 = some rAll ∧
      r2.out = rt.out ∧
      r1.out ++ r2.out = rAll.out := by
  have hmk : m = CR ∨ m = LF := by rcases hm with h | h <;> simp [h.1]
  have hne : m ≠ 0 ∧ m ≠ m2 := by rcases hm with h | h <;> simp [h.1, h.2]
  have hm2 : m2 = CR ∨ m2 = LF := by rcases hm with h | h <;> simp [h.2]
  have hs : (normalize s 0).map (fun r => r.out ++ [LF]) = some (scanOut 0 s ++ [LF]) := by
    rw [normalize_eq, Option.map_some', out_scan]
  rw [normalize_out_eq, hs] at hemit
  have hst := scanState_of_emitted 0 s m hmk (Option.some.inj hemit)
  have hlast : lastState 0 (s ++ [m]) = m := by simp [lastState, hmk]
  have hstep : stepByte m m2 = (0, none) := by simp [stepByte, hm2, hne]
  have habs : scanOut m (m2 :: t) = scanOut 0 t := by simp [scanOut, hstep]
  have hall : scanOut 0 (s ++ [m, m2] ++ t) = scanOut 0 (s ++ [m]) ++ scanOut 0 t := by
    have e : s ++ [m, m2] ++ t = (s ++ [m]) ++ (m2 :: t) := by simp
    rw [e, scanOut_append, hst, habs]
  refine ⟨_, _, _, _, normalize_eq _ _, normalize_eq _ _, normalize_eq _ _, normalize_eq _ _,
    ?_, ?_⟩
  · rw [out_scan, out_scan, hlast, habs]
  · rw [out_scan, out_scan, out_scan, hlast, habs, hall]

/-- C3, on the input `h CR | LF x`: the CR ends the first chunk and is emitted,
the LF opens the second chunk. -/
theorem split_line_ending_witness :
    ∃ r1 r2 rt rAll,
      normalize ([104] ++ [CR]) 0 = some r1 ∧
      normalize (LF :: [120]) r1.c = some r2 ∧
      normalize [120] 0 = some rt ∧
      normalize ([104] ++ [CR, LF] ++ [120]) 0 = some rAll ∧
      r2.out = rt.out ∧
      r1.out ++ r2.out = rAll.out :=
  split_line_ending [104] [120] CR LF (Or.inl ⟨rfl, rfl⟩) (by decide)

/-- C4 (zero-capacity request), where the claim fails: `Read` with a
zero-length buffer does read upstream, once, and returns what that read
returns. On an exhausted in-memory source this is `(0, io.EOF)`; on a source
with unread input it is `(0, nil)`, after one upstream read. -/
theorem zero_capacity_reads_upstream :
    (Read bytesReader.logged { r := ([], []), c := 0 } []).map
        (fun o => (o.l.r.2, o.n, o.err)) = some ([(0, some IOErr.EOF)], 0, some IOErr.EOF) ∧
    (Read bytesReader.logged { r := ([115, 116, 114], []), c := 0 } []).map
        (fun o => (o.l.r.2, o.n, o.err)) = some ([(0, none)], 0, none) := by
  decide

/-- C4 as amended: over an upstream whose reads leave the buffer's length
alone and return a count between 0 and that length, `Read` with a zero-length
buffer performs exactly one upstream read, on that buffer, and no retry; it
returns the count 0, which is that read's count, and that read's error
unchanged, and leaves the stored byte and the buffer as that read left
them. -/
theorem zero_capacity_one_read {σ ε : Type} (u : Upstream σ ε) (s : σ)
    (log : List (Int × Option ε)) (c : Nat)
    (hw : ∀ (t : σ) (q : List Nat), (u.read t q).buf.length = q.length ∧ 0 ≤ (u.read t q).n ∧
      (u.read t q).n ≤ (q.length : Int)) :
    ∃ o, Read u.logged { r := (s, log), c := c } [] = some o ∧
      o.l.r = ((u.read s []).state, ((u.read s []).n, (u.read s []).err) :: log) ∧
      o.n = (u.read s []).n ∧ o.n = 0 ∧
      o.err = (u.read s []).err ∧
      o.l.c = c ∧ o.buf = (u.read s []).buf := by
  have hb := contract_bounds u.logged { r := (s, log), c := c } [] (logged_contract u hw)
  obtain ⟨_, hn0, hn1⟩ := hw s []
  have hz : (u.read s []).n = 0 := by
    simp only [List.length_nil, Nat.cast_zero] at hn1
    omega
  refine ⟨_, Read_eq _ _ _ hb.1 hb.2, ?_⟩
  have hc : ¬ ((filled c (u.read s []).buf (u.read s []).n).2.2 = 0 ∧
      ([] : List Nat).length ≠ 0 ∧ (u.read s []).err.isNone) := by simp
  simp only [logged_state, logged_buf, logged_n, logged_err]
  rw [if_neg hc]
  simp only
  rw [filled_of_nonpos _ _ _ (by omega)]
  simp [hz]

/-- C4 as amended, on the in-memory source with the unread input `str` (the
row `0 read` of the tests). -/
theorem zero_capacity_one_read_witness :
    ∃ o, Read bytesReader.logged { r := ([115, 116, 114], []), c := 0 } [] = some o ∧
      o.l.r = ((bytesReader.read [115, 116, 114] []).state,
        ((bytesReader.read [115, 116, 114] []).n,
          (bytesReader.read [115, 116, 114] []).err) :: []) ∧
      o.n = (bytesReader.read [115, 116, 114] []).n ∧ o.n = 0 ∧
      o.err = (bytesReader.read [115, 116, 114] []).err ∧
      o.l.c = 0 ∧ o.buf = (bytesReader.read [115, 116, 114] []).buf :=
  zero_capacity_one_read bytesReader [115, 116, 114] [] 0 bytesReader_wellBehaved

/-- C5 (errors verbatim): over an upstream whose reads leave the buffer's
length alone and return a count between 0 and that length, `Read` returns,
and its error is the error of the most recent upstream read of the call; the
call performed either the first read only, or the first read, which then had a
nil error, and one more; and either the first read's error was nil or it is
the error returned. -/
theorem read_error_verbatim {σ ε : Type} (u : Upstream σ ε) (s : σ)
    (log : List (Int × Option ε)) (c : Nat) (p : List Nat)
    (hw : ∀ (t : σ) (q : List Nat), (u.read t q).buf.length = q.length ∧ 0 ≤ (u.read t q).n ∧
      (u.read t q).n ≤ (q.length : Int)) :
    ∃ o, Read u.logged { r := (s, log), c := c } p = some o ∧
      (∃ n rest, o.l.r.2 = (n, o.err) :: rest) ∧
      (o.l.r.2 = ((u.read s p).n, (u.read s p).err) :: log ∨
        ∃ e2, o.l.r.2 = e2 :: ((u.read s p).n, none) :: log) ∧
      ((u.read s p).err = none ∨ o.err = (u.read s p).err) := by
  have hb := contract_bounds u.logged { r := (s, log), c := c } p (logged_contract u hw)
  refine ⟨_, Read_eq _ _ _ hb.1 hb.2, ?_⟩
  simp only [logged_state, logged_buf, logged_n, logged_err]
  split
  · rename_i h
    have he : (u.read s p).err = none := by
      have := h.2.2
      simpa using this
    refine ⟨⟨_, _, rfl⟩, Or.inr ?_, Or.inl he⟩
    rw [← he]
    exact ⟨_, rfl⟩
  · exact ⟨⟨_, _, rfl⟩, Or.inl rfl, Or.inr rfl⟩

/-- C5, on an upstream that delivers the byte `h` together with an error, read
with a buffer of two bytes: `Read` returns that error after the one read. -/
theorem read_error_verbatim_witness :
    ∃ o, Read scriptReader.logged { r := ([([104], some (IOErr.other 7))], []), c := 0 } [0, 0]
        = some o ∧
      (∃ n rest, o.l.r.2 = (n, o.err) :: rest) ∧
      (o.l.r.2 = ((scriptReader.read [([104], some (IOErr.other 7))] [0, 0]).n,
          (scriptReader.read [([104], some (IOErr.other 7))] [0, 0]).err) :: [] ∨
        ∃ e2, o.l.r.2 =
          e2 :: ((scriptReader.read [([104], some (IOErr.other 7))] [0, 0]).n, none) :: []) ∧
      o.err = some (IOErr.other 7) := by
  obtain ⟨o, h, h1, h2, h3⟩ :=
    read_error_verbatim scriptReader [([104], some (IOErr.other 7))] [] 0 [0, 0]
      scriptReader_wellBehaved
  refine ⟨o, h, h1, h2, ?_⟩
  rcases h3 with h3 | h3
  · exact absurd h3 (by decide)
  · exact h3

/-- C6 (single retry): over an upstream whose reads leave the buffer's length
alone and return a count between 0 and that length, `Read` returns after at
most two upstream reads; and when the buffer is not empty and the first
upstream read returns zero bytes and a nil error, it performs exactly one more
upstream read, on the same buffer, and returns that read's error and its
count, normalized when positive. -/
theorem read_single_retry {σ ε : Type} (u : Upstream σ ε) (s : σ)
    (log : List (Int × Option ε)) (c : Nat) (p : List Nat)
    (hw : ∀ (t : σ) (q : List Nat), (u.read t q).buf.length = q.length ∧ 0 ≤ (u.read t q).n ∧
      (u.read t q).n ≤ (q.length : Int)) :
    ∃ o, Read u.logged { r := (s, log), c := c } p = some o ∧
      o.l.r.2.length ≤ log.length + 2 ∧
      (p ≠ [] → (u.read s p).n = 0 → (u.read s p).err = none →
        o.l.r = ((u.read (u.read s p).state (u.read s p).buf).state,
          ((u.read (u.read s p).state (u.read s p).buf).n,
            (u.read (u.read s p).state (u.read s p).buf).err) :: (0, none) :: log) ∧
        o.err = (u.read (u.read s p).state (u.read s p).buf).err ∧
        normalizeFilled c (u.read (u.read s p).state (u.read s p).buf).buf
          (u.read (u.read s p).state (u.read s p).buf).n = some (o.l.c, o.buf, o.n)) := by
  have hb := contract_bounds u.logged { r := (s, log), c := c } p (logged_contract u hw)
  refine ⟨_, Read_eq _ _ _ hb.1 hb.2, ?_, ?_⟩
  · simp only [logged_state, logged_buf, logged_n, logged_err]
    split <;> simp
  · intro hp hn he
    have hf : filled c (u.read s p).buf (u.read s p).n = (c, (u.read s p).buf, 0) := by
      rw [filled_of_nonpos _ _ _ (by omega), hn]
    have hc : (filled c (u.read s p).buf (u.read s p).n).2.2 = 0 ∧ p.length ≠ 0 ∧
        (u.read s p).err.isNone := by
      refine ⟨by rw [hf], ?_, by simp [he]⟩
      simpa using hp
    have h2 : (u.read (u.read s p).state (u.read s p).buf).n ≤
        ((u.read (u.read s p).state (u.read s p).buf).buf.length : Int) := by
      obtain ⟨h1, _, h3⟩ := hw (u.read s p).state (u.read s p).buf
      omega
    simp only [logged_state, logged_buf, logged_n, logged_err]
    rw [if_pos hc]
    simp only [hf, hn, he]
    exact ⟨rfl, rfl, normalizeFilled_eq _ _ _ h2⟩

/-- C6, on an upstream that first returns `(0, nil)` and then delivers the
bytes CR and `x`, read with a buffer of three bytes. -/
theorem read_single_retry_witness :
    ∃ o, Read scriptReader.logged { r := ([([], none), ([CR, 120], none)], []), c := 0 } [0, 0, 0]
        = some o ∧
      o.l.r.2 = [(2, none), (0, none)] ∧ o.n = 2 ∧ o.out = [LF, 120] ∧ o.err = none := by
  obtain ⟨o, h, _, hr⟩ :=
    read_single_retry scriptReader [([], none), ([CR, 120], none)] [] 0 [0, 0, 0]
      scriptReader_wellBehaved
  obtain ⟨h1, h2, h3⟩ := hr (by decide) (by decide) (by decide)
  have h4 : normalizeFilled 0 [CR, 120, 0] 2 = some (0, [LF, 120, 0], 2) := by decide
  have h5 : normalizeFilled 0 [CR, 120, 0] 2 = some (o.l.c, o.buf, o.n) := h3
  rw [h4] at h5
  have h6 := Option.some.inj h5
  have hbuf : o.buf = [LF, 120, 0] := (congrArg (fun x => x.2.1) h6).symm
  have hn : o.n = 2 := (congrArg (fun x => x.2.2) h6).symm
  refine ⟨o, h, ?_, hn, ?_, h2⟩
  · rw [h1]; rfl
  · rw [ReadOut.out, hbuf, hn]; rfl

/-- C7 (partial read with error): over an upstream whose reads leave the
buffer's length alone and return a count between 0 and that length, when the
first upstream read returns `n > 0` bytes together with an error `e`, `Read`
performs no second upstream read and returns `(k, e)`, where `k` is what
`normalize` returns on those `n` bytes, and the first `k` bytes of the buffer
are the prefix `normalize` hands back. -/
theorem read_bytes_with_error {σ ε : Type} (u : Upstream σ ε) (s : σ)
    (log : List (Int × Option ε)) (c : Nat) (p : List Nat) (e : ε)
    (hw : ∀ (t : σ) (q : List Nat), (u.read t q).buf.length = q.length ∧ 0 ≤ (u.read t q).n ∧
      (u.read t q).n ≤ (q.length : Int))
    (hn : 0 < (u.read s p).n) (he : (u.read s p).err = some e) :
    ∃ o k, Read u.logged { r := (s, log), c := c } p = some o ∧
      o.l.r = ((u.read s p).state, ((u.read s p).n, some e) :: log) ∧
      o.err = some e ∧
      normalize ((u.read s p).buf.take (u.read s p).n.toNat) c = some k ∧
      o.n = k.n ∧ o.out = k.out ∧ o.l.c = k.c := by
  have hb := contract_bounds u.logged { r := (s, log), c := c } p (logged_contract u hw)
  refine ⟨_, _, Read_eq _ _ _ hb.1 hb.2, ?_, ?_, normalize_eq _ _, ?_, ?_, ?_⟩
  all_goals simp only [logged_state, logged_buf, logged_n, logged_err]
  all_goals
    rw [if_neg (by simp [he] :
      ¬ ((filled c (u.read s p).buf (u.read s p).n).2.2 = 0 ∧ p.length ≠ 0 ∧
        (u.read s p).err.isNone))]
  · rw [he]
  · exact he
  · rw [filled_of_pos _ _ _ hn]
  · rw [out_scan]
    simp only [ReadOut.out]
    rw [filled_out, if_pos hn]
  · rw [filled_of_pos _ _ _ hn]

/-- C7, on an upstream that delivers the single byte LF together with an
error, read by a normalizer whose stored byte is CR: the byte is absorbed and
`Read` returns `(0, e)`. -/
theorem read_bytes_with_error_witness :
    ∃ o, Read scriptReader.logged { r := ([([LF], some (IOErr.other 5))], []), c := CR } [0, 0]
        = some o ∧
      o.l.r.2 = [(1, some (IOErr.other 5))] ∧ o.n = 0 ∧ o.out = [] ∧
      o.err = some (IOErr.other 5) := by
  obtain ⟨o, k, h, h1, h2, h3, h4, h5, _⟩ :=
    read_bytes_with_error scriptReader [([LF], some (IOErr.other 5))] [] CR [0, 0]
      (IOErr.other 5) scriptReader_wellBehaved (by decide) (by decide)
  have hk : normalize [LF] CR = some { buf := [LF], c := LF, n := 0 } := by decide
  have hk2 : normalize [LF] CR = some k := h3
  rw [hk] at hk2
  have hk3 := Option.some.inj hk2
  refine ⟨o, h, ?_, ?_, ?_, h2⟩
  · rw [h1]; rfl
  · rw [h4, ← hk3]
  · rw [h5, ← hk3]; rfl

/-- C8 (count bounds): over an upstream whose reads leave the buffer's length
alone and return a count between 0 and that length, the count returned by
`Read` lies between 0 and the length of the buffer and is at most the count
of the most recent upstream read, the one whose bytes it normalized. -/
theorem read_count_bounds {σ ε : Type} (u : Upstream σ ε) (s : σ)
    (log : List (Int × Option ε)) (c : Nat) (p : List Nat)
    (hw : ∀ (t : σ) (q : List Nat), (u.read t q).buf.length = q.length ∧ 0 ≤ (u.read t q).n ∧
      (u.read t q).n ≤ (q.length : Int)) :
    ∃ o, Read u.logged { r := (s, log), c := c } p = some o ∧
      0 ≤ o.n ∧ o.n ≤ (p.length : Int) ∧
      ∃ n e rest, o.l.r.2 = (n, e) :: rest ∧ o.n ≤ n := by
  have hb := contract_bounds u.logged { r := (s, log), c := c } p (logged_contract u hw)
  refine ⟨_, Read_eq _ _ _ hb.1 hb.2, ?_⟩
  simp only [logged_state, logged_buf, logged_n, logged_err]
  obtain ⟨hb1, hn1, hle1⟩ := hw s p
  have hc1 := filled_count c (u.read s p).buf (u.read s p).n
  have hl1 := filled_length c (u.read s p).buf (u.read s p).n
  split
  · obtain ⟨_, hn2, hle2⟩ := hw (u.read s p).state
      (filled c (u.read s p).buf (u.read s p).n).2.1
    have hc2 := filled_count (filled c (u.read s p).buf (u.read s p).n).1
      (u.read (u.read s p).state (filled c (u.read s p).buf (u.read s p).n).2.1).buf
      (u.read (u.read s p).state (filled c (u.read s p).buf (u.read s p).n).2.1).n
    rw [hl1, hb1] at hle2
    exact ⟨hc2.2 hn2, by simp only; omega, _, _, _, rfl, hc2.1⟩
  · exact ⟨hc1.2 hn1, by simp only; omega, _, _, _, rfl, hc1.1⟩

/-- C8, on the in-memory source holding `h CR LF CR`, read with a buffer of
three bytes. -/
theorem read_count_bounds_witness :
    ∃ o, Read bytesReader.logged { r := ([104, CR, LF, CR], []), c := 0 } [0, 0, 0] = some o ∧
      0 ≤ o.n ∧ o.n ≤ (([0, 0, 0] : List Nat).length : Int) ∧
      ∃ n e rest, o.l.r.2 = (n, e) :: rest ∧ o.n ≤ n :=
  read_count_bounds bytesReader [104, CR, LF, CR] [] 0 [0, 0, 0] bytesReader_wellBehaved

/-- C9 (other bytes preserved): the bytes other than CR and LF of the prefix
handed back by `normalize` are those of the input, in order; and an input
without CR and LF is handed back as it is, with its length, the slice
unchanged. -/
theorem nonmarker_preserved (p : List Nat) (c : Nat) :
    ∃ r, normalize p c = some r ∧
      r.out.filter (fun b => !isMarker b) = p.filter (fun b => !isMarker b) ∧
      ((∀ b ∈ p, b ≠ CR ∧ b ≠ LF) → r.out = p ∧ r.n = (p.length : Int) ∧ r.buf = p) := by
  refine ⟨_, normalize_eq p c, ?_, ?_⟩
  · rw [out_scan, scanOut_filter]
  · intro h
    obtain ⟨ho, hs⟩ := scan_of_no_marker p c h
    rw [out_scan]
    simp [ho, hs]

/-- C9, on the input `this a str` of the tests with stored byte CR. -/
theorem nonmarker_preserved_witness :
    ∃ r, normalize [116, 104, 105, 115, 32, 97, 32, 115, 116, 114] CR = some r ∧
      r.out = [116, 104, 105, 115, 32, 97, 32, 115, 116, 114] ∧ r.n = 10 ∧
      r.buf = [116, 104, 105, 115, 32, 97, 32, 115, 116, 114] := by
  obtain ⟨r, h, _, hr⟩ := nonmarker_preserved [116, 104, 105, 115, 32, 97, 32, 115, 116, 114] CR
  exact ⟨r, h, hr (by decide)⟩

/-- C10 (no carriage return survives): the prefix handed back by `normalize`
has no CR byte, and it is the input with some CR and LF bytes left out and
the others written as LF, every other byte kept; and over an upstream whose
reads leave the buffer's length alone and return a count between 0 and that
length, `Read` returns and the prefix it hands back has no CR byte either. -/
theorem no_carriage_return {σ ε : Type} (p : List Nat) (c : Nat) (u : Upstream σ ε)
    (l : LFNormalizer σ) (q : List Nat) :
    (∃ r, normalize p c = some r ∧ (∀ b ∈ r.out, b ≠ CR) ∧
      ∃ kept : List Nat, kept.Sublist p ∧
        kept.filter (fun b => !isMarker b) = p.filter (fun b => !isMarker b) ∧
        r.out = kept.map (fun b => if b = CR ∨ b = LF then LF else b)) ∧
    ((∀ (t : σ) (q2 : List Nat), (u.read t q2).buf.length = q2.length ∧ 0 ≤ (u.read t q2).n ∧
        (u.read t q2).n ≤ (q2.length : Int)) →
      ∃ o, Read u l q = some o ∧ ∀ b ∈ o.out, b ≠ CR) := by
  constructor
  · refine ⟨_, normalize_eq p c, ?_, ?_⟩
    · rw [out_scan]; exact scanOut_no_CR p c
    · rw [out_scan]
      exact scanOut_sublist_map p c
  · intro hw
    have hb := contract_bounds u l q hw
    refine ⟨_, Read_eq _ _ _ hb.1 hb.2, ?_⟩
    have key : ∀ (c2 : Nat) (p2 : List Nat) (n2 : Int),
        ∀ b ∈ (filled c2 p2 n2).2.1.take (filled c2 p2 n2).2.2.toNat, b ≠ CR := by
      intro c2 p2 n2 b hb
      rw [filled_out] at hb
      by_cases h : 0 < n2
      · rw [if_pos h] at hb
        exact scanOut_no_CR _ _ b hb
      · rw [if_neg h] at hb
        have h0 : n2.toNat = 0 := by omega
        rw [h0] at hb
        simp at hb
    split
    · exact key _ _ _
    · exact key _ _ _

/-- C10, on the in-memory source holding `h CR LF CR`, read with a buffer of
three bytes by a normalizer whose stored byte is LF. -/
theorem no_carriage_return_witness :
    ∃ o, Read bytesReader { r := [104, CR, LF, CR], c := LF } [0, 0, 0] = some o ∧
      ∀ b ∈ o.out, b ≠ CR :=
  (no_carriage_return [104, CR, LF, CR] LF bytesReader { r := [104, CR, LF, CR], c := LF }
    [0, 0, 0]).2 bytesReader_wellBehaved

/-- C11 (cross-kind collapse): for every `n`, one pass on a fresh reader over
`n` repetitions of CR LF hands back exactly `n` line feeds, and so does one
pass over `n` repetitions of LF CR. -/
theorem cross_kind_collapse (n : Nat) :
    ∃ r1 r2,
      normalize (List.replicate n [CR, LF]).flatten 0 = some r1 ∧
      r1.out = List.replicate n LF ∧ r1.n = (n : Int) ∧
      normalize (List.replicate n [LF, CR]).flatten 0 = some r2 ∧
      r2.out = List.replicate n LF ∧ r2.n = (n : Int) := by
  refine ⟨_, _, normalize_eq _ _, ?_, ?_, normalize_eq _ _, ?_, ?_⟩
  · rw [out_scan, scanOut_crlf]
  · simp only [scanOut_crlf, List.length_replicate]
  · rw [out_scan, scanOut_lfcr]
  · simp only [scanOut_lfcr, List.length_replicate]

/-- C12 (same-kind non-collapse): for every `n` and each marker `m` of CR and
LF, normalizing `n` consecutive bytes `m` on a reader whose stored byte is 0 or
`m` hands back exactly `n` line feeds. -/
theorem same_kind_no_collapse (n m c : Nat) (hm : m = CR ∨ m = LF) (hc : c = 0 ∨ c = m) :
    ∃ r, normalize (List.replicate n m) c = some r ∧
      r.out = List.replicate n LF ∧ r.n = (n : Int) := by
  refine ⟨_, normalize_eq _ _, ?_, ?_⟩
  · rw [out_scan, scanOut_same_kind m hm n c hc]
  · simp only [scanOut_same_kind m hm n c hc, List.length_replicate]

/-- C12, on three carriage returns on a fresh reader (the row `multiple CR` of
the tests). -/
theorem same_kind_no_collapse_witness :
    ∃ r, normalize (List.replicate 3 CR) 0 = some r ∧
      r.out = List.replicate 3 LF ∧ r.n = ((3 : Nat) : Int) :=
  same_kind_no_collapse 3 CR 0 (Or.inl rfl) (Or.inl rfl)

/-- C13 (idempotence): a sequence without CR bytes normalized on a fresh reader
is handed back as it is, with its length; and the bytes handed back by one
pass on a fresh reader, normalized again on a fresh reader, are handed back
unchanged. -/
theorem renormalize_idempotent (p : List Nat) :
    ((∀ b ∈ p, b ≠ CR) →
      ∃ r, normalize p 0 = some r ∧ r.out = p ∧ r.n = (p.length : Int)) ∧
    (∃ r r2, normalize p 0 = some r ∧ normalize r.out 0 = some r2 ∧
      r2.out = r.out ∧ r2.n = r.n) := by
  constructor
  · intro h
    have hs := scanOut_of_no_CR p 0 (Or.inl rfl) h
    refine ⟨_, normalize_eq _ _, ?_, ?_⟩
    · rw [out_scan, hs]
    · simp only [hs]
  · have hs := scanOut_of_no_CR (scanOut 0 p) 0 (Or.inl rfl) (scanOut_no_CR p 0)
    refine ⟨_, _, normalize_eq _ _, normalize_eq _ _, ?_, ?_⟩
    · rw [out_scan, out_scan, hs]
    · simp only [out_scan, hs]

/-- C13, on three line feeds (the row `multiple LF` of the tests). -/
theorem renormalize_idempotent_witness :
    ∃ r, normalize [LF, LF, LF] 0 = some r ∧ r.out = [LF, LF, LF] ∧
      r.n = (([LF, LF, LF] : List Nat).length : Int) :=
  (renormalize_idempotent [LF, LF, LF]).1 (by decide)

/-- C14 (absorbed byte, then end of stream): a normalizer whose stored byte is
the marker `k`, reading with a non-empty buffer from an upstream whose first
read delivers the single byte `m`, the marker of the other kind, with a nil
error, and whose next read returns zero bytes and the error `e`, performs
these two upstream reads and returns `(0, e)`. -/
theorem absorbed_then_eof {σ ε : Type} (u : Upstream σ ε) (s : σ)
    (log : List (Int × Option ε)) (k m : Nat) (p : List Nat) (e : ε)
    (hk : (k = CR ∧ m = LF) ∨ (k = LF ∧ m = CR)) (hp : p ≠ [])
    (h1n : (u.read s p).n = 1) (h1b : (u.read s p).buf.take 1 = [m])
    (h1e : (u.read s p).err = none)
    (h2 : ∀ q, (u.read (u.read s p).state q).n = 0 ∧
      (u.read (u.read s p).state q).err = some e) :
    ∃ o, Read u.logged { r := (s, log), c := k } p = some o ∧
      o.n = 0 ∧ o.err = some e ∧ o.out = [] ∧
      o.l.r.2 = (0, some e) :: (1, none) :: log := by
  have hne : k ≠ 0 ∧ k ≠ m := by rcases hk with h | h <;> simp [h.1, h.2]
  have hm : m = CR ∨ m = LF := by rcases hk with h | h <;> simp [h.2]
  have hstep : stepByte k m = (0, none) := by simp [stepByte, hm, hne]
  have htk : (u.read s p).buf.take (1 : Int).toNat = [m] := h1b
  have hf : (filled k (u.read s p).buf (u.read s p).n).2.2 = 0 := by
    rw [h1n, filled_of_pos _ _ _ (by decide), htk]
    simp [scanOut, hstep]
  have hc : (filled k (u.read s p).buf (u.read s p).n).2.2 = 0 ∧ p.length ≠ 0 ∧
      (u.read s p).err.isNone := by
    refine ⟨hf, ?_, by simp [h1e]⟩
    simpa using hp
  obtain ⟨h2n, h2e⟩ := h2 (filled k (u.read s p).buf (u.read s p).n).2.1
  have hb1 : (u.logged.read (s, log) p).n ≤ ((u.logged.read (s, log) p).buf.length : Int) := by
    have hl : 1 ≤ (u.read s p).buf.length := by
      cases hbuf : (u.read s p).buf with
      | nil => rw [hbuf] at h1b; simp at h1b
      | cons x xs => simp
    show (u.read s p).n ≤ ((u.read s p).buf.length : Int)
    rw [h1n]
    omega
  have hb2 : (u.logged.read (u.logged.read (s, log) p).state
      (filled k (u.logged.read (s, log) p).buf (u.logged.read (s, log) p).n).2.1).n ≤
      ((u.logged.read (u.logged.read (s, log) p).state
        (filled k (u.logged.read (s, log) p).buf
          (u.logged.read (s, log) p).n).2.1).buf.length : Int) := by
    simp only [logged_state, logged_buf, logged_n]
    rw [h2n]
    omega
  refine ⟨_, Read_eq _ _ _ hb1 hb2, ?_⟩
  simp only [logged_state, logged_buf, logged_n, logged_err]
  rw [if_pos hc]
  simp only [ReadOut.out, h2n, h2e]
  rw [filled_of_nonpos _ _ _ (lt_irrefl (0 : Int))]
  simp [h1n, h1e]

/-- C14, on the row `previous CR, now LF, eof` of the tests: the in-memory
source holds the single byte LF, the stored byte is CR, the buffer has six
bytes. -/
theorem absorbed_then_eof_witness :
    ∃ o, Read bytesReader.logged { r := ([LF], []), c := CR } (List.replicate 6 0) = some o ∧
      o.n = 0 ∧ o.err = some IOErr.EOF ∧ o.out = [] ∧
      o.l.r.2 = (0, some IOErr.EOF) :: (1, none) :: [] :=
  absorbed_then_eof bytesReader [LF] [] CR LF (List.replicate 6 0) IOErr.EOF
    (Or.inl ⟨rfl, rfl⟩) (by decide) (by decide) (by decide) (by decide)
    (fun _ => ⟨rfl, rfl⟩)

/-- C15 (marker state after a collapse), evaluated where the code departs from
it: on the slice CR LF with stored byte 0 the LF is removed as the second half
of the line ending and the per-byte rules leave no pending marker, yet
`normalize` returns with the stored byte LF; a CR arriving first in the next
call is then removed, not emitted. The stored byte LF stands after an output
whose last line feed came from the CR. -/
theorem marker_after_collapse_fails :
    normalize [CR, LF] 0 = some { buf := [LF, LF], c := LF, n := 1 } ∧
    refNormalize Marker.none [CR, LF] = ([LF], Marker.none, 1) ∧
    (normalize [CR] LF).map (fun r => (r.out, r.n)) = some ([], 0) ∧
    (refNormalize Marker.none [CR]).1 = [LF] := by
  decide

/-- C16 (marker state after a byte other than CR and LF): after `normalize` on
a slice that is not empty, the stored byte is 0 exactly when the last raw byte
of the slice is neither CR nor LF. -/
theorem marker_zero_iff (p : List Nat) (c : Nat) (hp : p ≠ []) :
    ∃ r, normalize p c = some r ∧
      (r.c = 0 ↔ ¬ (p.getLast hp = CR ∨ p.getLast hp = LF)) := by
  refine ⟨_, normalize_eq p c, ?_⟩
  simp only [lastState_of_ne_nil c p hp]
  by_cases h : p.getLast hp = CR ∨ p.getLast hp = LF
  · rw [if_pos h]
    constructor
    · intro h0
      rcases h with h | h <;> rw [h] at h0 <;> exact absurd h0 (by decide)
    · intro hn
      exact absurd h hn
  · rw [if_neg h]
    exact ⟨fun _ => h, fun _ => rfl⟩

/-- C16, on the slice `x CR LF` with stored byte 0 and on the slice `CR x`. -/
theorem marker_zero_iff_witness :
    (∃ r, normalize [120, CR, LF] 0 = some r ∧
      (r.c = 0 ↔ ¬ ([120, CR, LF].getLast (by decide) = CR ∨
        [120, CR, LF].getLast (by decide) = LF))) ∧
    (∃ r, normalize [CR, 120] 0 = some r ∧
      (r.c = 0 ↔ ¬ ([CR, 120].getLast (by decide) = CR ∨
        [CR, 120].getLast (by decide) = LF))) :=
  ⟨marker_zero_iff [120, CR, LF] 0 (by decide), marker_zero_iff [CR, 120] 0 (by decide)⟩

/-- C17 (totality of `normalize`): on every slice and every stored byte the
scan loop, run with Go's `int` index, returns after at most `2 * len(p)`
iterations with the state the loop of `normalize` returns; every iteration
examines an index within `[0, len(p))`, so no read, write or copy leaves the
slice; and no two removals happen in consecutive iterations. -/
theorem normalize_total (p : List Nat) (c : Nat) :
    ∃ st tr,
      normalizeRun (2 * p.length + 1) p c 0 0 = some (st, tr) ∧
      normalizeLoop (2 * p.length + 1) p c 0 0 = some st ∧
      tr.length ≤ 2 * p.length ∧
      (∀ e ∈ tr, 0 ≤ e.index ∧ e.index < (p.length : Int)) ∧
      tr.Chain' (fun a b => ¬ (a.removed = true ∧ b.removed = true)) := by
  obtain ⟨st, hst⟩ := normalizeLoop_returns p c
  have hl := normalizeRun_state (2 * p.length + 1) p c 0 0
  rw [hst, Nat.cast_zero] at hl
  obtain ⟨r, hr, hfst⟩ := Option.map_eq_some'.mp hl
  obtain ⟨st2, tr⟩ := r
  simp only at hfst
  subst hfst
  obtain ⟨h1, h2, h3, _⟩ := normalizeRun_record _ _ _ _ _ _ _ hr
  exact ⟨st2, tr, hr, hst, by omega, h2, h3⟩

/-- C18 (the stored byte is the last raw byte): after `normalize` on a slice
that is not empty and whose last byte is the CR or LF byte `m`, the stored byte
is `m`, whatever the stored byte was before, also when that last byte was
removed. -/
theorem marker_is_last_raw (p : List Nat) (c m : Nat) (hp : p ≠ [])
    (hl : p.getLast hp = m) (hm : m = CR ∨ m = LF) :
    ∃ r, normalize p c = some r ∧ r.c = m := by
  refine ⟨_, normalize_eq p c, ?_⟩
  simp only [lastState_of_ne_nil c p hp, hl, if_pos hm]

/-- C18, on the slice CR LF with stored byte 0: the LF is removed (one byte is
handed back) and the stored byte is LF. -/
theorem marker_is_last_raw_witness :
    ∃ r, normalize [CR, LF] 0 = some r ∧ r.c = LF ∧ r.out = [LF] ∧ r.n = 1 := by
  obtain ⟨r, h, hc⟩ := marker_is_last_raw [CR, LF] 0 LF (by decide) rfl (Or.inr rfl)
  have hv : normalize [CR, LF] 0 = some { buf := [LF, LF], c := LF, n := 1 } := by decide
  have hr : r = { buf := [LF, LF], c := LF, n := 1 } := by
    rw [h] at hv
    exact Option.some.inj hv
  refine ⟨r, h, hc, ?_, ?_⟩
  · rw [hr]; rfl
  · rw [hr]

/-- C19 (a non-empty read that returns zero bytes and no error): the in-memory
source never returns zero bytes with a nil error for a buffer that is not
empty; over the input CR LF CR `x`, read with buffers of one byte by a
normalizer made by `NewLFNormalizer`, the first `Read` hands back LF, and the
second `Read` returns `(0, nil)` after two upstream reads of one byte each, the
LF and the CR, both removed; `x` is still unread. -/
theorem empty_read_without_error :
    (∀ (s q : List Nat), q = [] ∨ (bytesReader.read s q).n ≠ 0 ∨
      (bytesReader.read s q).err ≠ none) ∧
    ((Read bytesReader.logged (NewLFNormalizer ([CR, LF, CR, 120], [])) [0]).bind fun o1 =>
      (Read bytesReader.logged o1.l [0]).map fun o2 =>
        (o1.out, o1.n, o1.err, o2.out, o2.n, o2.err, o2.l.r, o2.l.c)) =
      some ([LF], 1, none, [], 0, none, ([120], [(1, none), (1, none), (1, none)]), CR) := by
  constructor
  · intro s q
    by_cases hq : q = []
    · exact Or.inl hq
    · right
      unfold bytesReader
      simp only
      split
      · right; simp
      · rename_i hs
        left
        have h1 : 0 < q.length := List.length_pos.mpr hq
        have h2 : 0 < s.length := by omega
        simp only [ne_eq, Nat.cast_eq_zero]
        omega
  · rfl

end Serialtools
